import Mathlib

/-!
# express-winston: request filter and logging middleware

A shallow embedding of `index.js`: the request white list, the default request
filter, `filterRequest`, and the two middleware factories `errorLogger` and
`logger`, followed by theorems about them.

JavaScript objects are association lists of own enumerable properties in
enumeration order; exceptions are explicit (`Except`); the calls a middleware
makes to its transports and to `next` are recorded as a list of events.
-/

namespace ExpressWinston

/-! ## Values -/

/-- JavaScript values as far as the module looks at them. Numbers are integers:
nothing in the module computes with them. -/
inductive Value where
  | undefined : Value
  | null : Value
  | bool (b : Bool) : Value
  | num (n : Int) : Value
  | str (s : String) : Value
  | obj (fields : List (String × Value)) : Value

/-- An object: its own enumerable properties, in enumeration order. -/
abbrev Obj := List (String × Value)

/-- The test `typeof(value) !== 'undefined'` negated: is the value `undefined`? -/
def Value.isUndefined : Value → Bool
  | .undefined => true
  | _ => false

/-- The names `Object.keys(o)` enumerates. -/
def Obj.keys (o : Obj) : List String := o.map Prod.fst

/-- Property read `o[k]`: the value stored under `k`, `undefined` when there is none. -/
def Obj.get : Obj → String → Value
  | [], _ => .undefined
  | (k', v) :: rest, k => if k' = k then v else Obj.get rest k

/-- Property lookup that tells an absent property from one holding `undefined`. -/
def Obj.find? : Obj → String → Option Value
  | [], _ => none
  | (k', v) :: rest, k => if k' = k then some v else Obj.find? rest k

/-- Assignment `o[k] = v`: overwrite in place when `k` is there, else add it last. -/
def Obj.set : Obj → String → Value → Obj
  | [], k, v => [(k, v)]
  | (k', v') :: rest, k, v => if k' = k then (k', v) :: rest else (k', v') :: Obj.set rest k v

/-- Does the object have an own property named `k`? -/
def Obj.has (o : Obj) (k : String) : Prop := k ∈ o.keys

instance (o : Obj) (k : String) : Decidable (o.has k) := by
  unfold Obj.has; infer_instance

/-- An object has each property name once. -/
def Obj.WellFormed (o : Obj) : Prop := o.keys.Nodup

instance (o : Obj) : Decidable o.WellFormed := by
  unfold Obj.WellFormed; infer_instance

/-- A thrown exception: `new Error(message)`, a `TypeError` the engine raises, or any
other thrown value. -/
inductive Exn where
  | error (message : String) : Exn
  | typeError : Exn
  | thrown (v : Value) : Exn

/-! ## The request filter -/

/-- The list `requestWhiteList`. -/
def requestWhiteList : List String :=
  ["url", "headers", "method", "httpVersion", "originalUrl", "query"]

/-- The method `Array.prototype.indexOf` on a list of strings, counting from `i`:
the first position holding `x`, or `-1`. -/
def indexOfFrom : List String → String → Int → Int
  | [], _, _ => -1
  | y :: ys, x, i => if y = x then i else indexOfFrom ys x (i + 1)

/-- The call `xs.indexOf(x)`. -/
def indexOf (xs : List String) (x : String) : Int := indexOfFrom xs x 0

/-- A request filter `function (req, propName)`: it returns a value or throws. -/
abbrev Selector := Obj → String → Except Exn Value

/-- The function `defaultRequestFilter`: `return req[propName]`. -/
def defaultRequestFilter : Selector := fun req propName => .ok (req.get propName)

/-- The body of the `forEach` callback in `filterRequest`, as a function of the
object `req` built so far. -/
def filterStep (originalReq : Obj) (initialFilter : Selector) (req : Obj)
    (propName : String) : Except Exn Obj :=
  if indexOf requestWhiteList propName = -1 then .ok req
  else
    match initialFilter originalReq propName with
    | .error e => .error e
    | .ok value => if value.isUndefined then .ok req else .ok (req.set propName value)

/-- The loop `names.forEach(callback)`: the callback runs on each name in order and
the first exception ends the loop. -/
def forEachKey (originalReq : Obj) (initialFilter : Selector) : List String → Obj → Except Exn Obj
  | [], req => .ok req
  | propName :: rest, req =>
    match filterStep originalReq initialFilter req propName with
    | .error e => .error e
    | .ok req' => forEachKey originalReq initialFilter rest req'

/-- The function `filterRequest(originalReq, initialFilter)`. -/
def filterRequest (originalReq : Obj) (initialFilter : Selector) : Except Exn Obj :=
  forEachKey originalReq initialFilter originalReq.keys []

/-- The function `filterRequest` on any argument. `Object.keys(originalReq)` throws a
`TypeError` on `undefined` and on `null`, before the request filter is called. On a
boolean, a number or a string it enumerates no name of the white list (none at all, or
index names), so the loop assigns nothing. -/
def filterRequestOf (originalReq : Value) (initialFilter : Selector) : Except Exn Obj :=
  match originalReq with
  | .undefined => .error .typeError
  | .null => .error .typeError
  | .obj fields => filterRequest fields initialFilter
  | _ => .ok []

/-! ## Transports and the calls a middleware makes -/

/-- A transport, as the middleware meets it. Each operation receives its arguments
and a completion callback; it either throws, or returns after handing the callback
an error (`some e`) or none. -/
structure Transport where
  log : String → String → Value → Except Exn (Option Value)
  logException : String → Value → Except Exn (Option Value)

/-- The completion callback both middlewares pass: `function () { }`. -/
def ignoreCompletion (_ : Option Value) : Unit := ()

/-- A call made by a middleware: to an operation of the transport at a position of
`options.transports`, or to `next`, with its argument if any. -/
inductive Event where
  | log (transport : Nat) (level : String) (msg : String) (metadata : Value) : Event
  | logException (transport : Nat) (kind : String) (metadata : Value) : Event
  | next (arg : Option Value) : Event

/-- One invocation of a middleware: the calls it made, in order, and the exception it
let escape, if any. -/
structure Run where
  events : List Event
  thrown : Option Exn

instance : Inhabited Run := ⟨⟨[], none⟩⟩

/-- Is the event a call of `next`? -/
def Event.isNext : Event → Bool
  | .next _ => true
  | _ => false

/-- Did the invocation call `next`? -/
def Run.callsNext (r : Run) : Bool := r.events.any Event.isNext

/-- The loop of `logger` over `options.transports`, from position `i`: it calls
`transport.log(options.level, msg, meta, callback)`; a call that throws ends it. -/
def logLoop (level msg : String) (metadata : Value) : List Transport → Nat → Run
  | [], _ => ⟨[], none⟩
  | transport :: rest, i =>
    match transport.log level msg metadata with
    | .error e => ⟨[.log i level msg metadata], some e⟩
    | .ok completion =>
      let _ := ignoreCompletion completion
      let r := logLoop level msg metadata rest (i + 1)
      ⟨.log i level msg metadata :: r.events, r.thrown⟩

/-- The loop of `errorLogger` over `options.transports`, from position `i`: it calls
`transport.logException('middlewareError', exceptionMeta, callback)`. -/
def logExceptionLoop (kind : String) (metadata : Value) : List Transport → Nat → Run
  | [], _ => ⟨[], none⟩
  | transport :: rest, i =>
    match transport.logException kind metadata with
    | .error e => ⟨[.logException i kind metadata], some e⟩
    | .ok completion =>
      let _ := ignoreCompletion completion
      let r := logExceptionLoop kind metadata rest (i + 1)
      ⟨.logException i kind metadata :: r.events, r.thrown⟩

/-- What `util.format` puts for a `%s`: `String(arg)`. -/
def formatS : Value → String
  | .undefined => "undefined"
  | .null => "null"
  | .bool true => "true"
  | .bool false => "false"
  | .num n => toString n
  | .str s => s
  | .obj _ => "[object Object]"

/-! ## The middleware factories -/

/-- The `options` object of both factories; `none` is a property that is not there. -/
structure Options where
  transports : Option (List Transport)
  requestFilter : Option Selector
  level : Option String

/-- The expression `options.requestFilter || defaultRequestFilter`. -/
def requestFilterOrDefault (requestFilter : Option Selector) : Selector :=
  match requestFilter with
  | some f => f
  | none => defaultRequestFilter

/-- The expression `options.level || "info"`: the empty string is falsy. -/
def levelOrDefault (level : Option String) : String :=
  match level with
  | some l => if l = "" then "info" else l
  | none => "info"

/-- The function returned by `errorLogger`; `getAllInfo` is
`winston.exception.getAllInfo`, which is not part of this module: it returns an object
or throws, and the call is not guarded. -/
def errorLoggerMiddleware (getAllInfo : Value → Except Exn Obj) (transports : List Transport)
    (requestFilter : Selector) (err : Value) (req : Obj) (_res : Value) : Run :=
  match getAllInfo err with
  | .error e => ⟨[], some e⟩
  | .ok exceptionMeta =>
    match filterRequest req requestFilter with
    | .error e => ⟨[], some e⟩
    | .ok filtered =>
      let exceptionMeta := exceptionMeta.set "req" (.obj filtered)
      let r := logExceptionLoop "middlewareError" (.obj exceptionMeta) transports 0
      match r.thrown with
      | some e => ⟨r.events, some e⟩
      | none => ⟨r.events ++ [.next (some err)], none⟩

/-- The function `errorLogger(options)`. -/
def errorLogger (getAllInfo : Value → Except Exn Obj) (options : Option Options) :
    Except Exn (Value → Obj → Value → Run) :=
  match options with
  | none => .error (.error "options are required by express-winston middleware")
  | some options =>
    match options.transports with
    | none => .error (.error "transports are required by express-winston middleware")
    | some transports =>
      if ¬ (transports.length > 0) then
        .error (.error "transports are required by express-winston middleware")
      else
        .ok (errorLoggerMiddleware getAllInfo transports
          (requestFilterOrDefault options.requestFilter))

/-- The function returned by `logger`. -/
def loggerMiddleware (transports : List Transport) (requestFilter : Selector)
    (level : String) (req : Obj) (_res : Value) : Run :=
  match filterRequest req requestFilter with
  | .error e => ⟨[], some e⟩
  | .ok filtered =>
    let metadata := Value.obj [("req", .obj filtered)]
    let msg := "HTTP " ++ formatS (req.get "method") ++ " " ++ formatS (req.get "url")
    let r := logLoop level msg metadata transports 0
    match r.thrown with
    | some e => ⟨r.events, some e⟩
    | none => ⟨r.events ++ [.next none], none⟩

/-- The function `logger(options)`. -/
def logger (options : Option Options) : Except Exn (Obj → Value → Run) :=
  match options with
  | none => .error (.error "options are required by express-winston middleware")
  | some options =>
    match options.transports with
    | none => .error (.error "transports are required by express-winston middleware")
    | some transports =>
      if ¬ (transports.length > 0) then
        .error (.error "transports are required by express-winston middleware")
      else
        .ok (loggerMiddleware transports (requestFilterOrDefault options.requestFilter)
          (levelOrDefault options.level))

/-! ## Example inputs -/

/-- The request of the specification's example:
`{url:"/a", headers:{h:1}, method:"GET", secret:"x"}`. -/
def exampleReq : Obj :=
  [("url", .str "/a"), ("headers", .obj [("h", .num 1)]), ("method", .str "GET"),
   ("secret", .str "x")]

/-- The request `{url:"/a", body:{password:"p"}}`. -/
def exampleReqWithBody : Obj :=
  [("url", .str "/a"), ("body", .obj [("password", .str "p")])]

/-- A request filter that returns the string `"x"` for every property name. -/
def constantFilter : Selector := fun _ _ => .ok (.str "x")

/-- A request filter that hides the header list and passes every other property on. -/
def hideHeadersFilter : Selector := fun req propName =>
  if propName = "headers" then .ok .undefined else .ok (req.get propName)

/-- The request `{method:"GET", url:"/x"}`. -/
def getReq : Obj := [("method", .str "GET"), ("url", .str "/x")]

/-- A transport whose operations return and report no error. -/
def quietTransport : Transport :=
  ⟨fun _ _ _ => .ok none, fun _ _ => .ok none⟩

/-- A transport whose operations return after handing the completion callback an
error. -/
def failingTransport : Transport :=
  ⟨fun _ _ _ => .ok (some (.str "write failed")), fun _ _ => .ok (some (.str "write failed"))⟩

/-- A transport whose operations throw. -/
def throwingTransport : Transport :=
  ⟨fun _ _ _ => .error (.thrown (.str "stream closed")),
   fun _ _ => .error (.thrown (.str "stream closed"))⟩

/-- A stand-in for `winston.exception.getAllInfo`: reading `err.stack` throws a
`TypeError` on `undefined` and on `null`; any other error is filed under `stack`. -/
def sampleAllInfo : Value → Except Exn Obj
  | .undefined => .error .typeError
  | .null => .error .typeError
  | err => .ok [("stack", err)]

/-- The level a call of `log` carries; `none` for the other calls. -/
def Event.level? : Event → Option String
  | .log _ level _ _ => some level
  | _ => none

/-- Options with two transports that return, the second one reporting an error to its
completion callback: `{transports: [quiet, failing]}`. -/
def twoTransportOptions : Options := ⟨some [quietTransport, failingTransport], none, none⟩

/-- Options whose first transport throws: `{transports: [throwing, quiet]}`. -/
def throwingOptions : Options := ⟨some [throwingTransport, quietTransport], none, none⟩

/-- Options with a request filter and a level:
`{transports: [quiet], requestFilter: hideHeaders, level: "debug"}`. -/
def debugOptions : Options := ⟨some [quietTransport], some hideHeadersFilter, some "debug"⟩

/-- Options with the empty string as level: `{transports: [quiet], level: ""}`. -/
def emptyLevelOptions : Options := ⟨some [quietTransport], none, some ""⟩

/-- An error value: `{message: "boom"}`. -/
def sampleError : Value := .obj [("message", .str "boom")]

/-! ## The restriction the specification describes -/

/-- The restriction of an object to the properties whose name is in the white list
and whose value is defined, each with the value it has in the object. -/
def restrictToWhiteList (o : Obj) : Obj :=
  o.filter (fun p => decide (p.1 ∈ requestWhiteList) && !p.2.isUndefined)

/-! ## Lemmas on objects -/

theorem indexOfFrom_eq_neg_one (xs : List String) (x : String) :
    ∀ i : Int, 0 ≤ i → (indexOfFrom xs x i = -1 ↔ x ∉ xs) := by
  induction xs with
  | nil => intro i _; simp [indexOfFrom]
  | cons y ys ih =>
    intro i hi
    by_cases h : y = x
    · subst h
      simp only [indexOfFrom, if_true, List.mem_cons, true_or, not_true_eq_false, iff_false]
      omega
    · have h' : ¬ x = y := fun e => h e.symm
      simp only [indexOfFrom, if_neg h, List.mem_cons, h', false_or]
      exact ih (i + 1) (by omega)

theorem indexOf_eq_neg_one (xs : List String) (x : String) :
    indexOf xs x = -1 ↔ x ∉ xs :=
  indexOfFrom_eq_neg_one xs x 0 (le_refl 0)

theorem Obj.find?_set (o : Obj) (k k' : String) (v : Value) :
    (o.set k v).find? k' = if k = k' then some v else o.find? k' := by
  induction o with
  | nil => simp [Obj.set, Obj.find?]
  | cons p rest ih =>
    obtain ⟨a, b⟩ := p
    by_cases h : a = k
    · subst h
      by_cases h' : a = k' <;> simp [Obj.set, Obj.find?, h']
    · by_cases h' : a = k'
      · subst h'
        have : ¬ k = a := fun e => h e.symm
        simp [Obj.set, Obj.find?, h, this]
      · simp [Obj.set, Obj.find?, h, h', ih]

theorem Obj.mem_keys_set (o : Obj) (k k' : String) (v : Value) :
    k' ∈ (o.set k v).keys ↔ k' = k ∨ k' ∈ o.keys := by
  induction o with
  | nil => simp [Obj.set, Obj.keys]
  | cons p rest ih =>
    obtain ⟨a, b⟩ := p
    by_cases h : a = k
    · subst h
      simp [Obj.set, Obj.keys]
    · simp only [Obj.keys] at ih
      simp only [Obj.set, if_neg h, Obj.keys, List.map_cons, List.mem_cons, ih]
      tauto

theorem Obj.has_iff_find? (o : Obj) (k : String) :
    o.has k ↔ ∃ v, o.find? k = some v := by
  induction o with
  | nil => simp [Obj.has, Obj.keys, Obj.find?]
  | cons p rest ih =>
    obtain ⟨a, b⟩ := p
    simp only [Obj.has, Obj.keys] at ih
    by_cases h : a = k
    · subst h
      simp [Obj.has, Obj.keys, Obj.find?]
    · have h' : ¬ k = a := fun e => h e.symm
      simp [Obj.has, Obj.keys, Obj.find?, h, h', ih]

theorem Obj.set_of_not_mem (o : Obj) (k : String) (v : Value) (h : k ∉ o.keys) :
    o.set k v = o ++ [(k, v)] := by
  induction o with
  | nil => simp [Obj.set]
  | cons p rest ih =>
    obtain ⟨a, b⟩ := p
    simp only [Obj.keys, List.map_cons, List.mem_cons, not_or] at h
    have h1 : ¬ a = k := fun e => h.1 e.symm
    simp only [Obj.set, if_neg h1, List.cons_append]
    rw [ih (by simpa [Obj.keys] using h.2)]

theorem Obj.get_of_mem (o : Obj) (h : o.WellFormed) (p : String × Value) (hp : p ∈ o) :
    o.get p.1 = p.2 := by
  induction o with
  | nil => simp at hp
  | cons q rest ih =>
    obtain ⟨a, b⟩ := q
    simp only [Obj.WellFormed, Obj.keys, List.map_cons, List.nodup_cons] at h
    rcases List.mem_cons.mp hp with e | hmem
    · subst e; simp [Obj.get]
    · have hne : ¬ a = p.1 := by
        intro e
        exact h.1 (by rw [e]; exact List.mem_map_of_mem Prod.fst hmem)
      simp only [Obj.get, if_neg hne]
      exact ih h.2 hmem

/-! ## Lemmas on the request filter -/

theorem filterStep_not_listed (r : Obj) (f : Selector) (acc : Obj) (k : String)
    (h : k ∉ requestWhiteList) : filterStep r f acc k = .ok acc := by
  simp [filterStep, (indexOf_eq_neg_one requestWhiteList k).mpr h]

theorem filterStep_listed (r : Obj) (f : Selector) (acc : Obj) (k : String)
    (h : k ∈ requestWhiteList) :
    filterStep r f acc k =
      match f r k with
      | .error e => .error e
      | .ok value => if value.isUndefined then .ok acc else .ok (acc.set k value) := by
  have : ¬ indexOf requestWhiteList k = -1 := fun e =>
    (indexOf_eq_neg_one requestWhiteList k).mp e h
  simp [filterStep, this]

/-- What one step of the loop does when it returns: either it leaves the object as it
was, or the name is listed, the filter gave a defined value and that value was
assigned. -/
theorem filterStep_ok (r : Obj) (f : Selector) (acc acc' : Obj) (k : String)
    (h : filterStep r f acc k = .ok acc') :
    (acc' = acc ∧ (k ∉ requestWhiteList ∨ f r k = .ok .undefined)) ∨
    (k ∈ requestWhiteList ∧ ∃ v, f r k = .ok v ∧ v.isUndefined = false ∧ acc' = acc.set k v) := by
  by_cases hk : k ∈ requestWhiteList
  · rw [filterStep_listed r f acc k hk] at h
    cases hf : f r k with
    | error e => rw [hf] at h; simp at h
    | ok v =>
      rw [hf] at h
      cases v with
      | undefined =>
        simp only [Value.isUndefined, if_true, Except.ok.injEq] at h
        exact Or.inl ⟨h.symm, Or.inr rfl⟩
      | null => right; refine ⟨hk, _, rfl, rfl, ?_⟩; simpa [Value.isUndefined] using h.symm
      | bool b => right; refine ⟨hk, _, rfl, rfl, ?_⟩; simpa [Value.isUndefined] using h.symm
      | num n => right; refine ⟨hk, _, rfl, rfl, ?_⟩; simpa [Value.isUndefined] using h.symm
      | str s => right; refine ⟨hk, _, rfl, rfl, ?_⟩; simpa [Value.isUndefined] using h.symm
      | obj o => right; refine ⟨hk, _, rfl, rfl, ?_⟩; simpa [Value.isUndefined] using h.symm
  · rw [filterStep_not_listed r f acc k hk] at h
    simp only [Except.ok.injEq] at h
    exact Or.inl ⟨h.symm, Or.inl hk⟩

theorem forEachKey_cons_ok (r : Obj) (f : Selector) (k : String) (ks : List String)
    (acc out : Obj) (h : forEachKey r f (k :: ks) acc = .ok out) :
    ∃ acc', filterStep r f acc k = .ok acc' ∧ forEachKey r f ks acc' = .ok out := by
  simp only [forEachKey] at h
  cases hs : filterStep r f acc k with
  | error e => rw [hs] at h; simp at h
  | ok acc' => rw [hs] at h; exact ⟨acc', rfl, h⟩

/-- Every property of the result was in the object the loop started from, or is a
listed name the loop visited for which the filter returned a defined value. -/
theorem forEachKey_has (r : Obj) (f : Selector) (k : String) :
    ∀ (ks : List String) (acc out : Obj), forEachKey r f ks acc = .ok out → out.has k →
      acc.has k ∨ (k ∈ ks ∧ k ∈ requestWhiteList ∧
        ∃ v, f r k = .ok v ∧ v.isUndefined = false) := by
  intro ks
  induction ks with
  | nil =>
    intro acc out h hk
    simp only [forEachKey, Except.ok.injEq] at h
    subst h; exact Or.inl hk
  | cons p rest ih =>
    intro acc out h hk
    obtain ⟨acc', hs, hrest⟩ := forEachKey_cons_ok r f p rest acc out h
    rcases ih acc' out hrest hk with hacc | ⟨hm, hw, hv⟩
    · rcases filterStep_ok r f acc acc' p hs with ⟨e, _⟩ | ⟨hw, v, hf, hd, e⟩
      · subst e; exact Or.inl hacc
      · subst e
        rcases (Obj.mem_keys_set acc p k v).mp hacc with e | hin
        · subst e; exact Or.inr ⟨List.mem_cons_self _ _, hw, v, hf, hd⟩
        · exact Or.inl hin
    · exact Or.inr ⟨List.mem_cons_of_mem _ hm, hw, hv⟩

/-- A listed name for which the filter returns a defined value holds that value in the
result, once the loop has visited it or the object it started from held it. -/
theorem forEachKey_find? (r : Obj) (f : Selector) (k : String) (v : Value)
    (hf : f r k = .ok v) (hd : v.isUndefined = false) (hw : k ∈ requestWhiteList) :
    ∀ (ks : List String) (acc out : Obj), forEachKey r f ks acc = .ok out →
      (k ∈ ks ∨ acc.find? k = some v) → out.find? k = some v := by
  intro ks
  induction ks with
  | nil =>
    intro acc out h hk
    simp only [forEachKey, Except.ok.injEq] at h
    subst h
    simpa using hk
  | cons p rest ih =>
    intro acc out h hk
    obtain ⟨acc', hs, hrest⟩ := forEachKey_cons_ok r f p rest acc out h
    apply ih acc' out hrest
    by_cases hpk : p = k
    · subst hpk
      right
      rcases filterStep_ok r f acc acc' p hs with ⟨_, hn | hu⟩ | ⟨_, v', hf', _, e⟩
      · exact absurd hw hn
      · rw [hf] at hu
        simp only [Except.ok.injEq] at hu
        subst hu; simp [Value.isUndefined] at hd
      · rw [hf] at hf'
        simp only [Except.ok.injEq] at hf'
        subst hf' e
        simp [Obj.find?_set]
    · rcases hk with hm | hacc
      · rcases List.mem_cons.mp hm with e | hm'
        · exact absurd e.symm hpk
        · exact Or.inl hm'
      · right
        rcases filterStep_ok r f acc acc' p hs with ⟨e, _⟩ | ⟨_, v', _, _, e⟩
        · subst e; exact hacc
        · subst e; simp [Obj.find?_set, hpk, hacc]

theorem filterStep_error (r : Obj) (f : Selector) (acc : Obj) (k : String) (e : Exn) :
    filterStep r f acc k = .error e ↔ k ∈ requestWhiteList ∧ f r k = .error e := by
  by_cases hk : k ∈ requestWhiteList
  · rw [filterStep_listed r f acc k hk]
    cases hf : f r k with
    | error e' => simp [hk]
    | ok v => by_cases hv : v.isUndefined = true <;> simp [hk, hv]
  · rw [filterStep_not_listed r f acc k hk]
    simp [hk]

/-- An exception leaving the loop is the one the filter threw on a listed name the
loop visited. -/
theorem forEachKey_error (r : Obj) (f : Selector) (e : Exn) :
    ∀ (ks : List String) (acc : Obj), forEachKey r f ks acc = .error e →
      ∃ k, k ∈ ks ∧ k ∈ requestWhiteList ∧ f r k = .error e := by
  intro ks
  induction ks with
  | nil => intro acc h; simp [forEachKey] at h
  | cons p rest ih =>
    intro acc h
    simp only [forEachKey] at h
    cases hs : filterStep r f acc p with
    | error e' =>
      rw [hs] at h
      simp only [Except.error.injEq] at h
      subst h
      obtain ⟨hw, hf⟩ := (filterStep_error r f acc p e').mp hs
      exact ⟨p, List.mem_cons_self _ _, hw, hf⟩
    | ok acc' =>
      rw [hs] at h
      obtain ⟨k, hm, hw, hf⟩ := ih acc' h
      exact ⟨k, List.mem_cons_of_mem _ hm, hw, hf⟩

/-- The loop throws as soon as the filter throws on one listed name it visits. -/
theorem forEachKey_error_of (r : Obj) (f : Selector) (k : String) (e : Exn)
    (hw : k ∈ requestWhiteList) (hf : f r k = .error e) :
    ∀ (ks : List String) (acc : Obj), k ∈ ks → ∃ e', forEachKey r f ks acc = .error e' := by
  intro ks
  induction ks with
  | nil => intro acc h; simp at h
  | cons p rest ih =>
    intro acc h
    simp only [forEachKey]
    cases hs : filterStep r f acc p with
    | error e' => exact ⟨e', rfl⟩
    | ok acc' =>
      rcases List.mem_cons.mp h with e1 | hm
      · subst e1
        rw [filterStep_listed r f acc k hw, hf] at hs
        simp at hs
      · exact ih acc' hm

/-- With the default filter the loop, run over the names of a list of properties that
all are properties of `r`, adds the restriction of that list to what it started from. -/
theorem forEachKey_default (r : Obj) (hr : ∀ p ∈ r, r.get p.1 = p.2) :
    ∀ (l acc : Obj), (∀ p ∈ l, p ∈ r) → l.WellFormed → (∀ k ∈ l.keys, k ∉ acc.keys) →
      forEachKey r defaultRequestFilter l.keys acc = .ok (acc ++ restrictToWhiteList l) := by
  intro l
  induction l with
  | nil => intro acc _ _ _; simp [Obj.keys, forEachKey, restrictToWhiteList]
  | cons q rest ih =>
    intro acc hsub hwf hdis
    obtain ⟨a, b⟩ := q
    have hget : r.get a = b := hr (a, b) (hsub _ (List.mem_cons_self _ _))
    have hsub' : ∀ p ∈ rest, p ∈ r := fun p hp => hsub p (List.mem_cons_of_mem _ hp)
    simp only [Obj.WellFormed, Obj.keys, List.map_cons, List.nodup_cons] at hwf
    have ha : a ∉ acc.keys := hdis a (by simp [Obj.keys])
    have hdis' : ∀ k ∈ Obj.keys rest, k ∉ acc.keys := fun k hk =>
      hdis k (by simp only [Obj.keys, List.map_cons, List.mem_cons]; exact Or.inr hk)
    simp only [Obj.keys, List.map_cons, forEachKey]
    by_cases hw : a ∈ requestWhiteList
    · rw [filterStep_listed r _ acc a hw]
      simp only [defaultRequestFilter, hget]
      by_cases hu : b.isUndefined = true
      · simp only [hu, if_true]
        have := ih acc hsub' hwf.2 hdis'
        simp only [Obj.keys] at this
        rw [this]
        simp [restrictToWhiteList, List.filter_cons, hw, hu]
      · have hu' : b.isUndefined = false := by simpa using hu
        simp only [hu', Bool.false_eq_true, if_false]
        rw [Obj.set_of_not_mem acc a b ha]
        have hdisApp : ∀ k ∈ Obj.keys rest, k ∉ Obj.keys (acc ++ [(a, b)]) := by
          intro k hk
          simp only [Obj.keys, List.map_append, List.map_cons, List.map_nil, List.mem_append,
            List.mem_singleton, not_or]
          refine ⟨hdis' k hk, ?_⟩
          intro e
          subst e
          exact hwf.1 hk
        have := ih (acc ++ [(a, b)]) hsub' hwf.2 hdisApp
        simp only [Obj.keys] at this
        rw [this]
        simp [restrictToWhiteList, List.filter_cons, hw, hu']
    · rw [filterStep_not_listed r _ acc a hw]
      have := ih acc hsub' hwf.2 hdis'
      simp only [Obj.keys] at this
      simp only [this]
      simp [restrictToWhiteList, List.filter_cons, hw]

/-- On an object with each name once, `filterRequest` with the default filter returns
the restriction to the white list. -/
theorem filterRequest_default_eq (r : Obj) (h : r.WellFormed) :
    filterRequest r defaultRequestFilter = .ok (restrictToWhiteList r) := by
  have := forEachKey_default r (Obj.get_of_mem r h) r [] (fun _ hp => hp) h
    (by intro k _; simp [Obj.keys])
  simpa [filterRequest] using this

theorem Obj.keys_set (o : Obj) (k : String) (v : Value) :
    (o.set k v).keys = if k ∈ o.keys then o.keys else o.keys ++ [k] := by
  induction o with
  | nil => simp [Obj.set, Obj.keys]
  | cons p rest ih =>
    obtain ⟨a, b⟩ := p
    simp only [Obj.keys] at ih
    by_cases h : a = k
    · subst h
      simp [Obj.set, Obj.keys]
    · have h' : ¬ k = a := fun e => h e.symm
      simp only [Obj.set, if_neg h, Obj.keys, List.map_cons, List.mem_cons, h', false_or, ih]
      by_cases hm : k ∈ List.map Prod.fst rest <;> simp [hm]

theorem Obj.wellFormed_set (o : Obj) (k : String) (v : Value) (h : o.WellFormed) :
    (o.set k v).WellFormed := by
  unfold Obj.WellFormed at *
  rw [Obj.keys_set]
  by_cases hm : k ∈ o.keys
  · simpa [hm] using h
  · simp only [hm, if_false]
    exact List.Nodup.append h (List.nodup_singleton k) (by simpa using hm)

theorem Obj.mem_set (o : Obj) (k : String) (v : Value) (p : String × Value)
    (h : p ∈ o.set k v) : p ∈ o ∨ p = (k, v) := by
  induction o with
  | nil => simpa [Obj.set] using h
  | cons q rest ih =>
    obtain ⟨a, b⟩ := q
    by_cases hk : a = k
    · subst hk
      simp only [Obj.set, if_true, List.mem_cons] at h
      rcases h with e | hm
      · exact Or.inr e
      · exact Or.inl (List.mem_cons_of_mem _ hm)
    · simp only [Obj.set, if_neg hk, List.mem_cons] at h
      rcases h with e | hm
      · exact Or.inl (by rw [e]; exact List.mem_cons_self _ _)
      · rcases ih hm with h1 | h2
        · exact Or.inl (List.mem_cons_of_mem _ h1)
        · exact Or.inr h2

/-- The loop keeps an object well formed, and made only of listed names with defined
values, if it started from such an object. -/
theorem forEachKey_invariant (r : Obj) (f : Selector) :
    ∀ (ks : List String) (acc out : Obj), forEachKey r f ks acc = .ok out →
      acc.WellFormed → (∀ p ∈ acc, p.1 ∈ requestWhiteList ∧ p.2.isUndefined = false) →
      out.WellFormed ∧ ∀ p ∈ out, p.1 ∈ requestWhiteList ∧ p.2.isUndefined = false := by
  intro ks
  induction ks with
  | nil =>
    intro acc out h hwf hall
    simp only [forEachKey, Except.ok.injEq] at h
    subst h; exact ⟨hwf, hall⟩
  | cons p rest ih =>
    intro acc out h hwf hall
    obtain ⟨acc', hs, hrest⟩ := forEachKey_cons_ok r f p rest acc out h
    rcases filterStep_ok r f acc acc' p hs with ⟨e, _⟩ | ⟨hw, v, _, hd, e⟩
    · subst e; exact ih acc' out hrest hwf hall
    · subst e
      refine ih _ out hrest (Obj.wellFormed_set acc p v hwf) ?_
      intro q hq
      rcases Obj.mem_set acc p v q hq with h1 | h2
      · exact hall q h1
      · subst h2; exact ⟨hw, hd⟩

theorem restrictToWhiteList_eq_self (o : Obj)
    (h : ∀ p ∈ o, p.1 ∈ requestWhiteList ∧ p.2.isUndefined = false) :
    restrictToWhiteList o = o := by
  unfold restrictToWhiteList
  rw [List.filter_eq_self]
  intro p hp
  obtain ⟨h1, h2⟩ := h p hp
  simp [h1, h2]

theorem Obj.get_of_find? (o : Obj) (k : String) (v : Value) (h : o.find? k = some v) :
    o.get k = v := by
  induction o with
  | nil => simp [Obj.find?] at h
  | cons p rest ih =>
    obtain ⟨a, b⟩ := p
    by_cases hk : a = k
    · simp only [Obj.find?, if_pos hk, Option.some.injEq] at h
      simp [Obj.get, hk, h]
    · simp only [Obj.find?, if_neg hk] at h
      simp only [Obj.get, if_neg hk]
      exact ih h

/-! ## The request filter: what it returns -/

/-- C1: every property name of the object `filterRequest` returns, whatever the
request filter does, is in the white list and names a property of the source object;
a name outside the white list, `body` for one, is never a property of the result. -/
theorem filterRequest_only_listed (r : Obj) (f : Selector) (out : Obj)
    (h : filterRequest r f = .ok out) :
    (∀ k, out.has k → k ∈ requestWhiteList ∧ r.has k) ∧
    (∀ k, k ∉ requestWhiteList → ¬ out.has k) ∧ ¬ out.has "body" := by
  have key : ∀ k, out.has k → k ∈ requestWhiteList ∧ r.has k := by
    intro k hk
    rcases forEachKey_has r f k r.keys [] out h hk with h0 | ⟨hm, hw, _⟩
    · simp [Obj.has, Obj.keys] at h0
    · exact ⟨hw, hm⟩
  refine ⟨key, fun k hn hk => hn (key k hk).1, fun hk => ?_⟩
  have := (key "body" hk).1
  revert this
  decide

/-- C1 at the request `{url:"/a", body:{password:"p"}}` with the default filter: the
result is `{url:"/a"}`. -/
theorem filterRequest_only_listed_witness :
    filterRequest exampleReqWithBody defaultRequestFilter = .ok [("url", .str "/a")] ∧
    ((∀ k, Obj.has [("url", .str "/a")] k → k ∈ requestWhiteList ∧ exampleReqWithBody.has k) ∧
     (∀ k, k ∉ requestWhiteList → ¬ Obj.has [("url", .str "/a")] k) ∧
     ¬ Obj.has [("url", .str "/a")] "body") :=
  ⟨rfl, filterRequest_only_listed exampleReqWithBody defaultRequestFilter _ rfl⟩

/-- C2 as first stated fails: `url` is in the white list and the constant filter
returns the defined value `"x"` for it on the empty object, yet `filterRequest`
returns the empty object, which has no `url`: the loop only visits the names the
source object has. -/
theorem filterRequest_absent_name_counterexample :
    "url" ∈ requestWhiteList ∧ constantFilter [] "url" = .ok (.str "x") ∧
    (Value.str "x").isUndefined = false ∧
    filterRequest [] constantFilter = .ok [] ∧ ¬ Obj.has [] "url" :=
  ⟨by decide, rfl, rfl, rfl, by decide⟩

/-- C2, amended: for a name `k` in the white list that is a property of the source
object `r`, if the request filter returns a defined value `v` for it, the object
`filterRequest` returns has the property `k`, holding exactly `v`. -/
theorem filterRequest_keeps_defined (r : Obj) (f : Selector) (k : String) (v : Value)
    (out : Obj) (hk : k ∈ requestWhiteList) (hr : r.has k) (hf : f r k = .ok v)
    (hd : v.isUndefined = false) (h : filterRequest r f = .ok out) :
    out.has k ∧ out.get k = v := by
  have hfind : out.find? k = some v :=
    forEachKey_find? r f k v hf hd hk r.keys [] out h (Or.inl hr)
  exact ⟨(Obj.has_iff_find? out k).mpr ⟨v, hfind⟩, Obj.get_of_find? out k v hfind⟩

/-- C2, amended, at the example request, the default filter and the name `headers`. -/
theorem filterRequest_keeps_defined_witness :
    "headers" ∈ requestWhiteList ∧ exampleReq.has "headers" ∧
    Obj.has [("url", .str "/a"), ("headers", .obj [("h", .num 1)]), ("method", .str "GET")]
      "headers" ∧
    Obj.get [("url", .str "/a"), ("headers", .obj [("h", .num 1)]), ("method", .str "GET")]
      "headers" = .obj [("h", .num 1)] :=
  ⟨by decide, by decide,
    filterRequest_keeps_defined exampleReq defaultRequestFilter "headers"
      (.obj [("h", .num 1)]) _ (by decide) (by decide) rfl rfl rfl⟩

/-- C3: for a name `k` in the white list for which the request filter returns
`undefined`, the object `filterRequest` returns has no property `k`. -/
theorem filterRequest_drops_undefined (r : Obj) (f : Selector) (k : String) (out : Obj)
    (_hk : k ∈ requestWhiteList) (hf : f r k = .ok .undefined)
    (h : filterRequest r f = .ok out) : ¬ out.has k := by
  intro hhas
  rcases forEachKey_has r f k r.keys [] out h hhas with h0 | ⟨_, _, v, hv, hd⟩
  · simp [Obj.has, Obj.keys] at h0
  · rw [hf] at hv
    simp only [Except.ok.injEq] at hv
    subst hv
    simp [Value.isUndefined] at hd

/-- C3 at the example request with a filter that returns `undefined` for `headers`:
the result is `{url:"/a", method:"GET"}`. -/
theorem filterRequest_drops_undefined_witness :
    "headers" ∈ requestWhiteList ∧ hideHeadersFilter exampleReq "headers" = .ok .undefined ∧
    filterRequest exampleReq hideHeadersFilter =
      .ok [("url", .str "/a"), ("method", .str "GET")] ∧
    ¬ Obj.has [("url", .str "/a"), ("method", .str "GET")] "headers" :=
  ⟨by decide, rfl, rfl,
    filterRequest_drops_undefined exampleReq hideHeadersFilter "headers" _ (by decide) rfl rfl⟩

/-- C4: with the default filter, `filterRequest` applied to an object returns exactly
the restriction of the object to the properties whose name is in the white list and
whose value is defined, each with its value in the object. -/
theorem filterRequest_default_restricts (r : Obj) (h : r.WellFormed) :
    filterRequest r defaultRequestFilter = .ok (restrictToWhiteList r) :=
  filterRequest_default_eq r h

/-- C4 at `{url:"/a", headers:{h:1}, method:"GET", secret:"x"}`: the result is exactly
`{url:"/a", headers:{h:1}, method:"GET"}`. -/
theorem filterRequest_default_restricts_witness :
    exampleReq.WellFormed ∧
    filterRequest exampleReq defaultRequestFilter =
      .ok [("url", .str "/a"), ("headers", .obj [("h", .num 1)]), ("method", .str "GET")] :=
  ⟨by decide, filterRequest_default_restricts exampleReq (by decide)⟩

/-- C8 as first stated fails: on `null` and on `undefined` as source record
`filterRequest` throws a `TypeError` of its own, from `Object.keys`, although the
request filter, here the constant one, throws on no name. -/
theorem filterRequest_null_counterexample :
    filterRequestOf .null constantFilter = .error .typeError ∧
    filterRequestOf .undefined constantFilter = .error .typeError ∧
    ∀ (r : Obj) (k : String), constantFilter r k = .ok (.str "x") :=
  ⟨rfl, rfl, fun _ _ => rfl⟩

/-- C8, amended: on every source record that is an object, `filterRequest` returns the
empty object when the record has no property; it throws exactly when the request
filter throws on a name of the white list that the record has, and the exception is
then one the filter threw on such a name; so it returns whenever the filter returns on
those names. -/
theorem filterRequest_throws_iff (r : Obj) (f : Selector) :
    filterRequestOf (.obj []) f = .ok [] ∧
    ((∃ e, filterRequestOf (.obj r) f = .error e) ↔
      ∃ k, r.has k ∧ k ∈ requestWhiteList ∧ ∃ e, f r k = .error e) ∧
    (∀ e, filterRequestOf (.obj r) f = .error e →
      ∃ k, r.has k ∧ k ∈ requestWhiteList ∧ f r k = .error e) ∧
    ((∀ k, r.has k → k ∈ requestWhiteList → ∃ v, f r k = .ok v) →
      ∃ out, filterRequestOf (.obj r) f = .ok out) := by
  have hobj : filterRequestOf (.obj r) f = filterRequest r f := rfl
  rw [hobj]
  have hsel : ∀ e, filterRequest r f = .error e →
      ∃ k, r.has k ∧ k ∈ requestWhiteList ∧ f r k = .error e := by
    intro e he
    obtain ⟨k, hm, hw, hf⟩ := forEachKey_error r f e r.keys [] he
    exact ⟨k, hm, hw, hf⟩
  refine ⟨rfl, ⟨?_, ?_⟩, hsel, ?_⟩
  · rintro ⟨e, he⟩
    obtain ⟨k, hm, hw, hf⟩ := hsel e he
    exact ⟨k, hm, hw, e, hf⟩
  · rintro ⟨k, hm, hw, e, hf⟩
    exact forEachKey_error_of r f k e hw hf r.keys [] hm
  · intro hall
    cases hres : filterRequest r f with
    | ok out => exact ⟨out, rfl⟩
    | error e =>
      obtain ⟨k, hm, hw, hf⟩ := hsel e hres
      obtain ⟨v, hv⟩ := hall k hm hw
      rw [hv] at hf
      simp at hf

/-- C10: `filterRequest` with the default filter returns an object, and applied to that
object with the default filter it returns the same object again. -/
theorem filterRequest_default_idempotent (r : Obj) :
    ∃ out, filterRequest r defaultRequestFilter = .ok out ∧
      filterRequest out defaultRequestFilter = .ok out := by
  cases hres : filterRequest r defaultRequestFilter with
  | error e =>
    obtain ⟨k, _, _, hf⟩ := forEachKey_error r defaultRequestFilter e r.keys [] hres
    simp [defaultRequestFilter] at hf
  | ok out =>
    refine ⟨out, rfl, ?_⟩
    obtain ⟨hwf, hall⟩ := forEachKey_invariant r defaultRequestFilter r.keys [] out hres
      (by simp [Obj.WellFormed, Obj.keys]) (by simp)
    rw [filterRequest_default_eq out hwf, restrictToWhiteList_eq_self out hall]

/-! ## The middleware factories -/

theorem Obj.get_set (o : Obj) (k : String) (v : Value) : (o.set k v).get k = v :=
  Obj.get_of_find? _ k v (by simp [Obj.find?_set])

/-- When every transport returns from `log`, the loop calls each in turn and returns. -/
theorem logLoop_returns (level msg : String) (md : Value) :
    ∀ (ts : List Transport) (i : Nat), (∀ t ∈ ts, ∃ c, t.log level msg md = .ok c) →
      logLoop level msg md ts i =
        ⟨(List.range' i ts.length).map (fun j => Event.log j level msg md), none⟩ := by
  intro ts
  induction ts with
  | nil => intro i _; simp [logLoop]
  | cons t rest ih =>
    intro i h
    obtain ⟨c, hc⟩ := h t (List.mem_cons_self _ _)
    have hrest := ih (i + 1) (fun t' ht' => h t' (List.mem_cons_of_mem _ ht'))
    simp [logLoop, hc, hrest, List.range'_succ]

/-- When every transport returns from `logException`, the loop calls each in turn and
returns. -/
theorem logExceptionLoop_returns (kind : String) (md : Value) :
    ∀ (ts : List Transport) (i : Nat), (∀ t ∈ ts, ∃ c, t.logException kind md = .ok c) →
      logExceptionLoop kind md ts i =
        ⟨(List.range' i ts.length).map (fun j => Event.logException j kind md), none⟩ := by
  intro ts
  induction ts with
  | nil => intro i _; simp [logExceptionLoop]
  | cons t rest ih =>
    intro i h
    obtain ⟨c, hc⟩ := h t (List.mem_cons_self _ _)
    have hrest := ih (i + 1) (fun t' ht' => h t' (List.mem_cons_of_mem _ ht'))
    simp [logExceptionLoop, hc, hrest, List.range'_succ]

/-- Every call the loop of `logger` makes is a call of `log` with the level, the
message and the metadata the loop was given. -/
theorem logLoop_events (level msg : String) (md : Value) :
    ∀ (ts : List Transport) (i : Nat) (ev : Event), ev ∈ (logLoop level msg md ts i).events →
      ∃ j, ev = Event.log j level msg md := by
  intro ts
  induction ts with
  | nil => intro i ev h; simp [logLoop] at h
  | cons t rest ih =>
    intro i ev h
    simp only [logLoop] at h
    cases hc : t.log level msg md with
    | error e =>
      rw [hc] at h
      simp only [List.mem_singleton] at h
      exact ⟨i, h⟩
    | ok c =>
      rw [hc] at h
      simp only [List.mem_cons] at h
      rcases h with h | h
      · exact ⟨i, h⟩
      · exact ih (i + 1) ev h

theorem logger_ok (o : Options) (ts : List Transport) (hts : o.transports = some ts)
    (hn : 1 ≤ ts.length) :
    logger (some o) = .ok (loggerMiddleware ts (requestFilterOrDefault o.requestFilter)
      (levelOrDefault o.level)) := by
  have : ts.length > 0 := hn
  simp [logger, hts, this]

theorem errorLogger_ok (getAllInfo : Value → Except Exn Obj) (o : Options) (ts : List Transport)
    (hts : o.transports = some ts) (hn : 1 ≤ ts.length) :
    errorLogger getAllInfo (some o) =
      .ok (errorLoggerMiddleware getAllInfo ts (requestFilterOrDefault o.requestFilter)) := by
  have : ts.length > 0 := hn
  simp [errorLogger, hts, this]

/-- C5: each factory throws exactly when `options` is missing, or `options.transports`
is missing, or `options.transports` is empty, and returns a middleware otherwise; in
particular both throw without options and on `{transports: []}`. -/
theorem factories_throw_iff (getAllInfo : Value → Except Exn Obj) (options : Option Options) :
    ((∃ e, logger options = .error e) ↔
      (options = none ∨ ∃ o, options = some o ∧
        (o.transports = none ∨ o.transports = some []))) ∧
    ((∃ e, errorLogger getAllInfo options = .error e) ↔
      (options = none ∨ ∃ o, options = some o ∧
        (o.transports = none ∨ o.transports = some []))) ∧
    ((∃ mw, logger options = .ok mw) ↔
      ∃ o t ts, options = some o ∧ o.transports = some (t :: ts)) ∧
    ((∃ mw, errorLogger getAllInfo options = .ok mw) ↔
      ∃ o t ts, options = some o ∧ o.transports = some (t :: ts)) ∧
    logger none = .error (.error "options are required by express-winston middleware") ∧
    errorLogger getAllInfo none =
      .error (.error "options are required by express-winston middleware") ∧
    logger (some ⟨some [], none, none⟩) =
      .error (.error "transports are required by express-winston middleware") ∧
    errorLogger getAllInfo (some ⟨some [], none, none⟩) =
      .error (.error "transports are required by express-winston middleware") := by
  refine ⟨?_, ?_, ?_, ?_, rfl, rfl, rfl, rfl⟩
  all_goals
    cases options with
    | none => simp [logger, errorLogger]
    | some o =>
      cases hts : o.transports with
      | none => simp [logger, errorLogger, hts]
      | some ts =>
        cases ts with
        | nil => simp [logger, errorLogger, hts]
        | cons t rest => simp [logger, errorLogger, hts]

/-- C6 as first stated fails: with `{transports: [throwing, quiet]}` and the request
`{method:"GET", url:"/x"}` the middleware of `logger` makes one call of `log`, to the
first transport, lets that transport's exception escape and does not call `next`. -/
theorem logger_throwing_transport_counterexample :
    ∃ mw, logger (some throwingOptions) = .ok mw ∧
      (mw getReq .undefined).events =
        [Event.log 0 "info" "HTTP GET /x" (.obj [("req", .obj getReq)])] ∧
      (mw getReq .undefined).events.length = 1 ∧
      (mw getReq .undefined).callsNext = false ∧
      (mw getReq .undefined).thrown.isSome = true :=
  ⟨_, rfl, rfl, rfl, rfl, rfl⟩

/-- C6, amended: for options with `n ≥ 1` transports and a request with method `m` and
url `u` on which `filterRequest` with the configured filter returns `filtered`, if no
transport throws from `log`, whatever it hands its completion callback, one invocation
of the middleware of `logger` makes exactly `n` calls of `log`, one per transport in
list order, each with message `"HTTP m u"` and metadata `{req: filtered}`, then calls
`next` without argument, and returns. -/
theorem logger_calls_each_transport (o : Options) (ts : List Transport) (req : Obj)
    (res : Value) (m u : String) (filtered : Obj)
    (hts : o.transports = some ts) (hn : 1 ≤ ts.length)
    (hm : req.get "method" = .str m) (hu : req.get "url" = .str u)
    (hfilter : filterRequest req (requestFilterOrDefault o.requestFilter) = .ok filtered)
    (hret : ∀ t ∈ ts, ∃ c, t.log (levelOrDefault o.level) ("HTTP " ++ m ++ " " ++ u)
      (.obj [("req", .obj filtered)]) = .ok c) :
    ∃ mw, logger (some o) = .ok mw ∧
      mw req res =
        ⟨(List.range ts.length).map (fun i => Event.log i (levelOrDefault o.level)
            ("HTTP " ++ m ++ " " ++ u) (.obj [("req", .obj filtered)])) ++ [.next none],
          none⟩ := by
  refine ⟨_, logger_ok o ts hts hn, ?_⟩
  simp only [loggerMiddleware, hfilter, hm, hu, formatS]
  rw [logLoop_returns _ _ _ ts 0 hret]
  simp [List.range_eq_range']

/-- C6, amended, at `{transports: [quiet, failing]}` and `{method:"GET", url:"/x"}`: two
calls of `log`, then `next()`. -/
theorem logger_calls_each_transport_witness :
    ∃ mw, logger (some twoTransportOptions) = .ok mw ∧
      mw getReq .undefined =
        ⟨[Event.log 0 "info" "HTTP GET /x" (.obj [("req", .obj getReq)]),
          Event.log 1 "info" "HTTP GET /x" (.obj [("req", .obj getReq)]),
          Event.next none], none⟩ :=
  logger_calls_each_transport twoTransportOptions [quietTransport, failingTransport] getReq
    .undefined "GET" "/x" getReq rfl (by decide) rfl rfl rfl
    (fun t ht => by
      simp only [List.mem_cons, List.mem_singleton, List.not_mem_nil, or_false] at ht
      rcases ht with e | e <;> subst e
      · exact ⟨none, rfl⟩
      · exact ⟨some (.str "write failed"), rfl⟩)

/-- C7 as first stated fails: with `{transports: [throwing, quiet]}` the middleware of
`errorLogger` makes one call of `logException`, to the first transport, lets that
transport's exception escape and does not call `next`; and on the error `null`, where
`getAllInfo` throws, it calls no transport and does not call `next` either. -/
theorem errorLogger_throwing_transport_counterexample :
    ∃ mw, errorLogger sampleAllInfo (some throwingOptions) = .ok mw ∧
      (mw sampleError getReq .undefined).events =
        [Event.logException 0 "middlewareError"
          (.obj [("stack", sampleError), ("req", .obj getReq)])] ∧
      (mw sampleError getReq .undefined).events.length = 1 ∧
      (mw sampleError getReq .undefined).callsNext = false ∧
      (mw sampleError getReq .undefined).thrown.isSome = true ∧
      (mw .null getReq .undefined).events.length = 0 ∧
      (mw .null getReq .undefined).callsNext = false ∧
      (mw .null getReq .undefined).thrown.isSome = true :=
  ⟨_, rfl, rfl, rfl, rfl, rfl, rfl, rfl, rfl⟩

/-- C7, amended: for options with `n ≥ 1` transports, an error `err` on which
`getAllInfo` returns an object `info`, and a request on which `filterRequest` with the
configured filter returns `filtered`, if no transport throws from `logException`, one
invocation of the middleware of `errorLogger` makes exactly `n` calls of
`logException`, one per transport in list order, each with kind `'middlewareError'`
and the object `info` with `req` set to `filtered`, then calls `next(err)` with the
error it received, and returns. -/
theorem errorLogger_calls_each_transport (getAllInfo : Value → Except Exn Obj) (o : Options)
    (ts : List Transport) (err : Value) (req : Obj) (res : Value) (info filtered : Obj)
    (hts : o.transports = some ts) (hn : 1 ≤ ts.length)
    (hinfo : getAllInfo err = .ok info)
    (hfilter : filterRequest req (requestFilterOrDefault o.requestFilter) = .ok filtered)
    (hret : ∀ t ∈ ts, ∃ c, t.logException "middlewareError"
      (.obj (info.set "req" (.obj filtered))) = .ok c) :
    ∃ mw, errorLogger getAllInfo (some o) = .ok mw ∧
      mw err req res =
        ⟨(List.range ts.length).map (fun i => Event.logException i "middlewareError"
            (.obj (info.set "req" (.obj filtered)))) ++ [.next (some err)],
          none⟩ ∧
      Obj.get (info.set "req" (.obj filtered)) "req" = .obj filtered := by
  refine ⟨_, errorLogger_ok getAllInfo o ts hts hn, ?_, Obj.get_set _ _ _⟩
  simp only [errorLoggerMiddleware, hinfo, hfilter]
  rw [logExceptionLoop_returns _ _ ts 0 hret]
  simp [List.range_eq_range']

/-- C7, amended, at `{transports: [quiet, failing]}`, the error `{message:"boom"}` and
the request `{method:"GET", url:"/x"}`: two calls of `logException`, then `next(err)`. -/
theorem errorLogger_calls_each_transport_witness :
    ∃ mw, errorLogger sampleAllInfo (some twoTransportOptions) = .ok mw ∧
      mw sampleError getReq .undefined =
        ⟨[Event.logException 0 "middlewareError"
            (.obj [("stack", sampleError), ("req", .obj getReq)]),
          Event.logException 1 "middlewareError"
            (.obj [("stack", sampleError), ("req", .obj getReq)]),
          Event.next (some sampleError)], none⟩ ∧
      Obj.get [("stack", sampleError), ("req", .obj getReq)] "req" = .obj getReq :=
  errorLogger_calls_each_transport sampleAllInfo twoTransportOptions
    [quietTransport, failingTransport] sampleError getReq .undefined
    [("stack", sampleError)] getReq rfl (by decide) rfl rfl
    (fun t ht => by
      simp only [List.mem_cons, List.mem_singleton, List.not_mem_nil, or_false] at ht
      rcases ht with e | e <;> subst e
      · exact ⟨none, rfl⟩
      · exact ⟨some (.str "write failed"), rfl⟩)

/-- C9 as first stated fails: with `{transports: [quiet], level: ""}` the level is
supplied, and the one call of `log` carries `"info"`, not the supplied string. -/
theorem logger_empty_level_counterexample :
    emptyLevelOptions.level = some "" ∧
    ∃ mw, logger (some emptyLevelOptions) = .ok mw ∧
      (mw getReq .undefined).events.map Event.level? = [some "info", none] :=
  ⟨rfl, _, rfl, rfl⟩

/-- C9, amended: every call of `log` the middleware of `logger` makes carries
`options.level` when that is supplied and not the empty string, and `"info"` when it
is not supplied or is the empty string; its metadata is `{req: filtered}` where
`filtered` is what `filterRequest` returns with `options.requestFilter` when that is
supplied and with the default filter otherwise. -/
theorem logger_level_and_filter (o : Options) (ts : List Transport)
    (mw : Obj → Value → Run) (req : Obj) (res : Value) (i : Nat) (lvl msg : String)
    (md : Value) (hts : o.transports = some ts) (hmw : logger (some o) = .ok mw)
    (hev : Event.log i lvl msg md ∈ (mw req res).events) :
    (∀ l, o.level = some l → l ≠ "" → lvl = l) ∧
    (o.level = none ∨ o.level = some "" → lvl = "info") ∧
    ∃ filtered, md = .obj [("req", .obj filtered)] ∧
      (∀ f, o.requestFilter = some f → filterRequest req f = .ok filtered) ∧
      (o.requestFilter = none → filterRequest req defaultRequestFilter = .ok filtered) := by
  have hlen : 1 ≤ ts.length := by
    cases ts with
    | nil => simp [logger, hts] at hmw
    | cons t rest => simp
  rw [logger_ok o ts hts hlen] at hmw
  simp only [Except.ok.injEq] at hmw
  subst hmw
  simp only [loggerMiddleware] at hev
  cases hfr : filterRequest req (requestFilterOrDefault o.requestFilter) with
  | error e => rw [hfr] at hev; simp at hev
  | ok filtered =>
    rw [hfr] at hev
    simp only at hev
    have hin : ∃ j, Event.log i lvl msg md = Event.log j (levelOrDefault o.level)
        ("HTTP " ++ formatS (req.get "method") ++ " " ++ formatS (req.get "url"))
        (.obj [("req", .obj filtered)]) := by
      apply logLoop_events _ _ _ ts 0
      split at hev
      · exact hev
      · rcases List.mem_append.mp hev with h | h
        · exact h
        · simp at h
    obtain ⟨j, hj⟩ := hin
    simp only [Event.log.injEq] at hj
    obtain ⟨_, hl, _, hmd⟩ := hj
    refine ⟨?_, ?_, filtered, hmd, ?_, ?_⟩
    · intro l hlev hne
      simp [hl, levelOrDefault, hlev, hne]
    · rintro (hlev | hlev) <;> simp [hl, levelOrDefault, hlev]
    · intro f hf
      simpa [requestFilterOrDefault, hf] using hfr
    · intro hf
      simpa [requestFilterOrDefault, hf] using hfr

/-- C9, amended, at `{transports: [quiet], requestFilter: hideHeaders, level: "debug"}`
and the example request: the call of `log` carries `"debug"` and the request as the
supplied filter leaves it. -/
theorem logger_level_and_filter_witness :
    (∀ l, debugOptions.level = some l → l ≠ "" → "debug" = l) ∧
    (debugOptions.level = none ∨ debugOptions.level = some "" → "debug" = "info") ∧
    ∃ filtered,
      Value.obj [("req", .obj [("url", .str "/a"), ("method", .str "GET")])] =
        .obj [("req", .obj filtered)] ∧
      (∀ f, debugOptions.requestFilter = some f → filterRequest exampleReq f = .ok filtered) ∧
      (debugOptions.requestFilter = none →
        filterRequest exampleReq defaultRequestFilter = .ok filtered) :=
  logger_level_and_filter debugOptions [quietTransport]
    (loggerMiddleware [quietTransport] hideHeadersFilter "debug") exampleReq .undefined 0
    "debug" "HTTP GET /a" (.obj [("req", .obj [("url", .str "/a"), ("method", .str "GET")])])
    rfl rfl (List.Mem.head _)

end ExpressWinston
